import Mathlib

/-!
Shallow embedding of `zug/util.hpp`: right-to-left function composition
(`comp`, `detail::composed`, `detail::invoke_composition`, the chaining
`operator|`) together with the primitive callables `identity`, `identity_`
and `constantly`.

Modelling choices.  All values that flow through a composition are drawn
from one type `V`.  A C++ callable is either a plain callable — modelled as
a function on its (variadic) argument list, `List V → V`, to which
`compat::invoke` reduces — or a `detail::composed<Fn, Fns...>` object, which
publicly derives from `std::tuple<Fn, Fns...>` and therefore stores a
nonempty tuple of callables; it is modelled as a head callable plus the list
of remaining ones.  Since a `composed` object is itself a callable (it has
`operator()`), chain elements may themselves be chains, which the inductive
type `Callable` captures.

Value categories (needed by the contracts of `identity`, `identity_` and
`constantly`) are modelled separately by a store mapping addresses to
values, and expression results tagged as mutable lvalues, const lvalues or
prvalues.
-/

namespace Zug

/-- A C++ callable as seen by the composition engine of `zug/util.hpp`:
either a plain callable (`compat::invoke` applies it to the argument list)
or a `detail::composed<Fn, Fns...>` object storing the nonempty tuple of
callables `fn :: fns` (head `Fn` plus tail pack `Fns...`). -/
inductive Callable (V : Type) : Type
  | fn (f : List V → V)
  | composed (fn : Callable V) (fns : List (Callable V))

mutual

/-- `compat::invoke` on a callable / `composed::operator()`: a plain
callable is applied to the argument list directly; a `composed` object
invokes its stored tuple right-to-left (the source routes this through
`detail::invoke_composition(as_tuple(), xs...)`; the index-based recursion
is reproduced verbatim below as `invoke_composition` and proved equal in
`invoke_composition_eq_invoke`). -/
def invoke {V : Type} : Callable V → List V → V
  | .fn f, args => f args
  | .composed f fs, args => invokeChain f fs args
termination_by c _ => sizeOf c

/-- Right-to-left invocation of the tuple `f :: gs`: the last element
receives the caller's full argument list, every earlier element receives
exactly one argument — the single result of the stage after it — and `f`
(index 0) runs last and produces the final result. -/
def invokeChain {V : Type} : Callable V → List (Callable V) → List V → V
  | f, [], args => invoke f args
  | f, g :: gs, args => invoke f [invokeChain g gs args]
termination_by f gs _ => sizeOf f + sizeOf gs
decreasing_by
all_goals simp
all_goals omega

end

/-- `std::get<i>` on the stored tuple of callables (out-of-range access is
impossible in the C++ source, where the index is a compile-time constant
below the tuple size; the junk default keeps the model total). -/
def tuple_get {V : Type} [Inhabited V] : List (Callable V) → Nat → Callable V
  | [], _ => .fn fun _ => default
  | f :: _, 0 => f
  | _ :: fs, i + 1 => tuple_get fs i

/-- `detail::invoke_composition_impl<Index>::apply(fns, args...)`: invokes
`std::get<Index>(fns)` with `args...` and passes the single result to the
instance at `Index - 1`; the specialization at index 0 invokes
`std::get<0>(fns)` with the arguments it is given and returns its result. -/
def invoke_composition_impl {V : Type} [Inhabited V] (fns : List (Callable V)) :
    Nat → List V → V
  | 0, args => invoke (tuple_get fns 0) args
  | i + 1, args =>
      invoke_composition_impl fns i [invoke (tuple_get fns (i + 1)) args]

/-- `detail::invoke_composition(fns, args...)`: starts the recursion at
`Size - 1` where `Size` is the tuple size. -/
def invoke_composition {V : Type} [Inhabited V] (fns : List (Callable V))
    (args : List V) : V :=
  invoke_composition_impl fns (fns.length - 1) args

theorem invoke_fn {V : Type} (f : List V → V) (args : List V) :
    invoke (Callable.fn f) args = f args := by
  simp [invoke]

theorem invoke_composed {V : Type} (f : Callable V) (fs : List (Callable V))
    (args : List V) : invoke (Callable.composed f fs) args = invokeChain f fs args := by
  simp [invoke]

theorem invokeChain_nil {V : Type} (f : Callable V) (args : List V) :
    invokeChain f [] args = invoke f args := by
  simp [invokeChain]

theorem invokeChain_cons {V : Type} (f g : Callable V) (gs : List (Callable V))
    (args : List V) :
    invokeChain f (g :: gs) args = invoke f [invokeChain g gs args] := by
  simp [invokeChain]

/-- `detail::is_composed_v<T>`: whether a callable is a `composed` object. -/
def is_composed_v {V : Type} : Callable V → Bool
  | .composed _ _ => true
  | .fn _ => false

/-- `composed::as_tuple` viewed through `detail::to_function_tuple`: a
`composed` object exposes its stored tuple of callables (the `try_t`
overload, enabled by `is_composed_v`); any other callable is wrapped in a
one-element tuple by `std::make_tuple` (the `catch_t` overload). -/
def to_function_tuple {V : Type} : Callable V → List (Callable V)
  | .composed f fs => f :: fs
  | .fn f => [.fn f]

/-- `detail::make_composed(fns)`: builds a `composed` object from a tuple of
callables.  The empty tuple cannot arise from `comp` — every argument
contributes at least one element via `to_function_tuple` — and is ill-formed
in the C++ source; the model returns a junk callable there. -/
def make_composed {V : Type} [Inhabited V] : List (Callable V) → Callable V
  | [] => .fn fun _ => default
  | f :: fs => .composed f fs

/-- The single-argument overload `comp(F&& f) -> composed<std::decay_t<F>>`:
wraps `f` as the sole element of a `composed` object.  Overload resolution
prefers this non-variadic overload for a one-argument call, so no
flattening through `to_function_tuple` happens here, even when `f` is
itself a `composed` object. -/
def comp1 {V : Type} (f : Callable V) : Callable V :=
  .composed f []

/-- `comp(Fn&& f, Fns&&... fns)`: with no trailing arguments this is the
single-argument overload `comp1`; with at least one trailing argument it
concatenates (`std::tuple_cat`) the `to_function_tuple` views of all the
arguments and builds a `composed` object from the result. -/
def comp {V : Type} [Inhabited V] (f : Callable V) (fns : List (Callable V)) :
    Callable V :=
  match fns with
  | [] => comp1 f
  | _ :: _ =>
      make_composed (to_function_tuple f ++ (fns.map to_function_tuple).flatten)

/-- `detail::operator|(Lhs&& lhs, Rhs&& rhs)`: defined as
`comp(lhs, rhs)`, but SFINAE-constrained (`std::enable_if_t`) to
participate in overload resolution only when at least one operand is a
`composed` object; `none` models the overload not being available. -/
def pipeOp {V : Type} [Inhabited V] (lhs rhs : Callable V) :
    Option (Callable V) :=
  if is_composed_v lhs || is_composed_v rhs then some (comp lhs [rhs]) else none

/-- `std::tuple_size` of the stored tuple of a `composed` object — the
number of elements of the chain.  A plain callable has no stored tuple;
the model assigns it size 0. -/
def chain_size {V : Type} : Callable V → Nat
  | .composed _ fns => fns.length + 1
  | .fn _ => 0

/-- A unary C++ callable as a chain element: it reads its single argument
from the head of the argument list. -/
def fn1 {V : Type} [Inhabited V] (f : V → V) : Callable V :=
  .fn fun args => f (args.headD default)

/-- `zug::identity` as a chain element: `operator()(T&& x)` returns its
single argument (the value-category-aware contract of `identity_t` is
modelled separately below). -/
def identityC {V : Type} [Inhabited V] : Callable V :=
  .fn fun args => args.headD default

theorem invokeChain_append_singleton {V : Type} (gs : List (Callable V))
    (f g : Callable V) (args : List V) :
    invokeChain f (gs ++ [g]) args = invokeChain f gs [invoke g args] := by
  induction gs generalizing f with
  | nil => simp [invokeChain_cons, invokeChain_nil]
  | cons h rest ih => simp [invokeChain_cons, ih]

theorem tuple_get_append_lt {V : Type} [Inhabited V] (l l' : List (Callable V))
    (i : Nat) (h : i < l.length) : tuple_get (l ++ l') i = tuple_get l i := by
  induction l generalizing i with
  | nil => simp at h
  | cons f fs ih =>
      cases i with
      | zero => simp [tuple_get]
      | succ j => simpa [tuple_get] using ih j (by simpa using h)

theorem tuple_get_append_length {V : Type} [Inhabited V]
    (l : List (Callable V)) (g : Callable V) :
    tuple_get (l ++ [g]) l.length = g := by
  induction l with
  | nil => simp [tuple_get]
  | cons f fs ih => simpa [tuple_get] using ih

theorem invoke_composition_impl_append {V : Type} [Inhabited V]
    (l l' : List (Callable V)) (i : Nat) (h : i < l.length) (args : List V) :
    invoke_composition_impl (l ++ l') i args = invoke_composition_impl l i args := by
  induction i generalizing args with
  | zero =>
      simp [invoke_composition_impl,
        tuple_get_append_lt l l' 0 (Nat.lt_of_lt_of_le (Nat.zero_lt_succ 0) h)]
  | succ j ih =>
      simp [invoke_composition_impl, tuple_get_append_lt l l' (j + 1) h,
        ih (Nat.lt_of_succ_lt h)]

/-- The `composed::operator()` body of the source —
`invoke_composition(as_tuple(), xs...)` — agrees with the structural
right-to-left fold `invokeChain` used to define `invoke` on `composed`
objects. -/
theorem invoke_composition_eq_invoke {V : Type} [Inhabited V]
    (hd : Callable V) (tl : List (Callable V)) (args : List V) :
    invoke_composition (hd :: tl) args = invoke (Callable.composed hd tl) args := by
  rw [invoke_composed]
  show invoke_composition_impl (hd :: tl) ((hd :: tl).length - 1) args =
    invokeChain hd tl args
  induction tl using List.reverseRecOn generalizing args with
  | nil =>
      simp [invoke_composition_impl, tuple_get, invokeChain_nil]
  | append_singleton rest g ih =>
      have hlen : (hd :: (rest ++ [g])).length - 1 = rest.length + 1 := by
        simp
      rw [hlen]
      have hget : tuple_get (hd :: (rest ++ [g])) (rest.length + 1) = g := by
        simpa [tuple_get] using tuple_get_append_length rest g
      have happ : (hd :: (rest ++ [g])) = (hd :: rest) ++ [g] := by simp
      rw [invoke_composition_impl, hget, happ,
        invoke_composition_impl_append (hd :: rest) [g] rest.length (by simp),
        invokeChain_append_singleton]
      have := ih [invoke g args]
      simpa using this

/-! Value-category model for the primitive callables.  A store maps
addresses to values; the result of an expression is a mutable lvalue
(designating a store address through which writes are possible), a const
lvalue (a read-only alias of an address), or a prvalue (an independent
value that aliases no caller storage). -/

def Store (V : Type) : Type := Nat → V

def Store.read {V : Type} (s : Store V) (a : Nat) : V := s a

def Store.write {V : Type} (s : Store V) (a : Nat) (v : V) : Store V :=
  fun b => if b = a then v else s b

/-- The result of evaluating a C++ expression, tagged with its value
category: a mutable lvalue at address `a`, a const lvalue at address `a`,
or a prvalue carrying an independent value. -/
inductive Expr (V : Type) : Type
  | lval (a : Nat)
  | clval (a : Nat)
  | prval (v : V)

/-- The value an expression result denotes under store `s`. -/
def Expr.valueIn {V : Type} (s : Store V) : Expr V → V
  | .lval a => s.read a
  | .clval a => s.read a
  | .prval v => v

/-- Writing `w` through an expression result: only a mutable lvalue gives
write access to the underlying storage. -/
def Expr.writeThru {V : Type} (s : Store V) (e : Expr V) (w : V) : Store V :=
  match e with
  | .lval a => s.write a w
  | _ => s

/-- Whether an expression result aliases the storage at address `a`. -/
def Expr.aliasOf {V : Type} (a : Nat) : Expr V → Prop
  | .lval b => b = a
  | .clval b => b = a
  | .prval _ => False

/-- `zug::identity_t::operator()(T&& x)`: declared `decltype(auto)` and
returning `ZUG_FWD(x)`, it forwards its argument with its value category
unchanged. -/
def identity_t.call {V : Type} (x : Expr V) : Expr V := x

/-- `zug::identity__t::operator()(T&& x)` (the `identity_` object):
declared `auto` and returning `ZUG_FWD(x)`, so the return type decays and
the result is a fresh value (a prvalue holding the argument's value), never
a reference into the caller's storage. -/
def identity__t.call {V : Type} (s : Store V) (x : Expr V) : Expr V :=
  .prval (x.valueIn s)

/-- `zug::constantly(T&& value) -> constantly_t<std::decay_t<T>>`: the
captured field holds a decayed copy of the argument's value. -/
def constantly {V : Type} (s : Store V) (arg : Expr V) : V :=
  arg.valueIn s

/-- `constantly_t::operator()(ArgTs&&...) & -> T&`: invoked through a
mutable lvalue path, returns a mutable reference to the stored `value`
field (modelled by the address `self` of that field); the arguments, of any
number and type, are ignored. -/
def constantly_t.call_mut {V W : Type} (self : Nat) (_args : List W) : Expr V :=
  .lval self

/-- `constantly_t::operator()(ArgTs&&...) const& -> const T&`: invoked
through a const path, returns a read-only reference to the stored `value`
field; the arguments are ignored. -/
def constantly_t.call_const {V W : Type} (self : Nat) (_args : List W) : Expr V :=
  .clval self

/-- `constantly_t::operator()(ArgTs&&...) && -> T&&`: invoked as a consumed
temporary, returns `std::move(value)` — the stored value moved out as an
independent value; the arguments are ignored. -/
def constantly_t.call_rval {V W : Type} (s : Store V) (self : Nat)
    (_args : List W) : Expr V :=
  .prval (s.read self)

/-- Instrumented mirror of `invoke_composition_impl` that additionally
records, for every chain element it invokes, the pair of the element's
index and the argument list that element received, in invocation order.
The recursion is the same as in `invoke_composition_impl`; the first
component is proved equal to it in `invoke_composition_impl_trace_spec`. -/
def invoke_composition_impl_trace {V : Type} [Inhabited V]
    (fns : List (Callable V)) : Nat → List V → V × List (Nat × List V)
  | 0, args => (invoke (tuple_get fns 0) args, [(0, args)])
  | i + 1, args =>
      let p := invoke_composition_impl_trace fns i
        [invoke (tuple_get fns (i + 1)) args]
      (p.1, (i + 1, args) :: p.2)

theorem invoke_composition_impl_trace_spec {V : Type} [Inhabited V]
    (fns : List (Callable V)) (i : Nat) (args : List V) :
    (invoke_composition_impl_trace fns i args).1 =
        invoke_composition_impl fns i args ∧
      (invoke_composition_impl_trace fns i args).2.map Prod.fst =
        (List.range (i + 1)).reverse ∧
      (invoke_composition_impl_trace fns i args).2.head? = some (i, args) ∧
      ∀ e ∈ (invoke_composition_impl_trace fns i args).2.tail, e.2.length = 1 := by
  induction i generalizing args with
  | zero =>
      refine ⟨rfl, by simp [invoke_composition_impl_trace, List.range_succ], ?_, ?_⟩
      · simp [invoke_composition_impl_trace]
      · simp [invoke_composition_impl_trace]
  | succ j ih =>
      obtain ⟨h1, h2, h3, h4⟩ := ih [invoke (tuple_get fns (j + 1)) args]
      refine ⟨?_, ?_, ?_, ?_⟩
      · simpa [invoke_composition_impl_trace, invoke_composition_impl] using h1
      · simp only [invoke_composition_impl_trace, List.map_cons, h2]
        simp [List.range_succ]
      · simp [invoke_composition_impl_trace]
      · intro e he
        simp only [invoke_composition_impl_trace, List.tail_cons] at he
        rcases hl : (invoke_composition_impl_trace fns j
            [invoke (tuple_get fns (j + 1)) args]).2 with _ | ⟨hd, tl⟩
        · rw [hl] at he; simp at he
        · rw [hl] at he h3 h4
          simp only [List.head?_cons, Option.some.injEq] at h3
          rw [List.mem_cons] at he
          rcases he with rfl | he
          · simp [h3]
          · exact h4 e (by simpa using he)

/-- C1: invoking the composition built from the pair `(f, g)` on `x`
equals `f (g x)`: the element at the last index is invoked first with the
original argument and the element at index 0 is invoked last, i.e.
composition is right-to-left. -/
theorem comp_pair_invokes_right_to_left {V : Type} [Inhabited V]
    (f g : V → V) (x : V) :
    invoke (comp (fn1 f) [fn1 g]) [x] = f (g x) := by
  simp [comp, make_composed, to_function_tuple, invoke_composed,
    invokeChain_cons, invokeChain_nil, invoke_fn, fn1]

/-- C2 (counterexample): `comp` applied to exactly one argument that is
already a chain does not unpack it.  The two-element chain
`comp (fn1 (n+1)) [fn1 (2*n)]` passed alone to `comp` yields a chain of
size 1 whose sole element is that chain itself — a chain containing a
chain. -/
theorem comp_single_chain_counterexample :
    is_composed_v (comp (fn1 (fun n : Nat => n + 1)) [fn1 (fun n : Nat => 2 * n)]) =
        true ∧
      chain_size (comp (fn1 (fun n : Nat => n + 1)) [fn1 (fun n : Nat => 2 * n)]) = 2 ∧
      to_function_tuple
          (comp (comp (fn1 (fun n : Nat => n + 1)) [fn1 (fun n : Nat => 2 * n)]) []) =
        [comp (fn1 (fun n : Nat => n + 1)) [fn1 (fun n : Nat => 2 * n)]] ∧
      chain_size
          (comp (comp (fn1 (fun n : Nat => n + 1)) [fn1 (fun n : Nat => 2 * n)]) []) = 1 :=
  ⟨rfl, rfl, rfl, rfl⟩

/-- C2 (amended): when `comp` is given two or more inputs, each input that
is a chain is unpacked one level (its elements appended in order) and any
other input is appended as a single element, so composing a chain of size
`a` with a chain of size `b` yields one flat chain of size exactly
`a + b`. -/
theorem comp_multi_arg_flattens {V : Type} [Inhabited V] (a b : Callable V)
    (ha : is_composed_v a = true) (hb : is_composed_v b = true) :
    to_function_tuple (comp a [b]) = to_function_tuple a ++ to_function_tuple b ∧
      chain_size (comp a [b]) = chain_size a + chain_size b := by
  cases a with
  | fn f => simp [is_composed_v] at ha
  | composed f fs =>
      cases b with
      | fn g => simp [is_composed_v] at hb
      | composed g gs =>
          constructor
          · simp [comp, make_composed, to_function_tuple]
          · simp [comp, make_composed, to_function_tuple, chain_size]
            omega

theorem comp_multi_arg_flattens_witness :
    is_composed_v (comp (fn1 Nat.succ) [fn1 (fun n : Nat => 2 * n)]) = true ∧
      is_composed_v (comp (fn1 (fun n : Nat => n + 3)) [fn1 (fun n : Nat => n * n)]) =
        true ∧
      chain_size
          (comp (comp (fn1 Nat.succ) [fn1 (fun n : Nat => 2 * n)])
            [comp (fn1 (fun n : Nat => n + 3)) [fn1 (fun n : Nat => n * n)]]) =
        chain_size (comp (fn1 Nat.succ) [fn1 (fun n : Nat => 2 * n)]) +
          chain_size (comp (fn1 (fun n : Nat => n + 3)) [fn1 (fun n : Nat => n * n)]) :=
  ⟨rfl, rfl,
    (comp_multi_arg_flattens (comp (fn1 Nat.succ) [fn1 (fun n : Nat => 2 * n)])
      (comp (fn1 (fun n : Nat => n + 3)) [fn1 (fun n : Nat => n * n)]) rfl rfl).2⟩

/-- C3: the compositions `comp (comp f g) h`, `comp f (comp g h)` and
`comp f g h` are equal chain objects (hence observably equivalent on every
input), they form a flat 3-element chain, and invoking them applies the
callables right-to-left. -/
theorem comp_assoc_flat {V : Type} [Inhabited V] (f g h : V → V) (x : V) :
    comp (comp (fn1 f) [fn1 g]) [fn1 h] = comp (fn1 f) [fn1 g, fn1 h] ∧
      comp (fn1 f) [comp (fn1 g) [fn1 h]] = comp (fn1 f) [fn1 g, fn1 h] ∧
      chain_size (comp (fn1 f) [fn1 g, fn1 h]) = 3 ∧
      invoke (comp (fn1 f) [fn1 g, fn1 h]) [x] = f (g (h x)) := by
  refine ⟨rfl, rfl, rfl, ?_⟩
  simp [comp, make_composed, to_function_tuple, invoke_composed,
    invokeChain_cons, invokeChain_nil, invoke_fn, fn1]

/-- C4: when a chain of `N` elements is invoked, the element at index
`N - 1` is invoked first and receives the caller's full argument list;
every other element is invoked in strictly decreasing index order down to
index 0 and receives exactly one argument, the single result of the
previously invoked element. -/
theorem chain_invocation_threads_single_values {V : Type} [Inhabited V]
    (hd : Callable V) (tl : List (Callable V)) (args : List V) :
    (invoke_composition_impl_trace (hd :: tl) ((hd :: tl).length - 1) args).2.head? =
        some ((hd :: tl).length - 1, args) ∧
      (∀ e ∈ (invoke_composition_impl_trace (hd :: tl)
          ((hd :: tl).length - 1) args).2.tail, e.2.length = 1) ∧
      (invoke_composition_impl_trace (hd :: tl) ((hd :: tl).length - 1) args).2.map
          Prod.fst =
        (List.range (hd :: tl).length).reverse ∧
      (invoke_composition_impl_trace (hd :: tl) ((hd :: tl).length - 1) args).1 =
        invoke_composition (hd :: tl) args := by
  obtain ⟨h1, h2, h3, h4⟩ :=
    invoke_composition_impl_trace_spec (hd :: tl) ((hd :: tl).length - 1) args
  refine ⟨h3, h4, ?_, ?_⟩
  · simpa using h2
  · simpa [invoke_composition] using h1

/-- C6: whenever at least one operand is a chain, `operator|` is available
and produces exactly `comp lhs rhs`; when neither operand is a chain the
operator does not participate in overload resolution. -/
theorem pipeOp_eq_comp {V : Type} [Inhabited V] (lhs rhs : Callable V) :
    (is_composed_v lhs = true ∨ is_composed_v rhs = true →
        pipeOp lhs rhs = some (comp lhs [rhs])) ∧
      (is_composed_v lhs = false → is_composed_v rhs = false →
        pipeOp lhs rhs = none) := by
  constructor
  · intro h
    rcases h with h | h <;> simp [pipeOp, h]
  · intro h1 h2
    simp [pipeOp, h1, h2]

theorem pipeOp_eq_comp_witness :
    pipeOp (comp1 (fn1 Nat.succ)) (fn1 (fun n : Nat => 2 * n)) =
        some (comp (comp1 (fn1 Nat.succ)) [fn1 (fun n : Nat => 2 * n)]) ∧
      pipeOp (fn1 Nat.succ) (fn1 (fun n : Nat => 2 * n)) = none :=
  ⟨(pipeOp_eq_comp _ _).1 (Or.inl rfl), (pipeOp_eq_comp _ _).2 rfl rfl⟩

/-- C7: `identity` is a left and a right unit of composition — invoking
`comp identity f`, `f` alone, or `comp f identity` on `x` all yield
`f x`. -/
theorem identity_unit_of_comp {V : Type} [Inhabited V] (f : V → V) (x : V) :
    invoke (comp identityC [fn1 f]) [x] = f x ∧
      invoke (fn1 f) [x] = f x ∧
      invoke (comp (fn1 f) [identityC]) [x] = f x := by
  refine ⟨?_, ?_, ?_⟩ <;>
    simp [comp, make_composed, to_function_tuple, invoke_composed,
      invokeChain_cons, invokeChain_nil, invoke_fn, fn1, identityC]

/-- C8: composing a single non-chain callable produces a size-1 chain that
still supports invocation and further chaining: `comp (comp f) g` is the
same chain as `comp f g` and behaves identically. -/
theorem comp_single_uniformity {V : Type} [Inhabited V] (f g : V → V) (x : V) :
    chain_size (comp (fn1 f) []) = 1 ∧
      invoke (comp (fn1 f) []) [x] = f x ∧
      comp (comp (fn1 f) []) [fn1 g] = comp (fn1 f) [fn1 g] ∧
      invoke (comp (comp (fn1 f) []) [fn1 g]) [x] = f (g x) := by
  refine ⟨rfl, ?_, rfl, ?_⟩ <;>
    simp [comp, comp1, make_composed, to_function_tuple, invoke_composed,
      invokeChain_cons, invokeChain_nil, invoke_fn, fn1]

/-- C9: `constantly v` captures `v` by decayed copy, and the resulting
callable — invoked with any argument list, of any length and element type —
always yields the captured value: as a mutable reference to the stored
field through the mutable lvalue path (writes through the result update the
stored field), as a read-only reference through the const path, and as the
stored value moved out through the consumed-temporary path. -/
theorem constantly_returns_captured {V W : Type} (s : Store V) (self : Nat)
    (args : List W) (w : V) (arg : Expr V) :
    constantly_t.call_mut (V := V) self args = Expr.lval self ∧
      Expr.valueIn s (constantly_t.call_mut (V := V) self args) = Store.read s self ∧
      constantly_t.call_const (V := V) self args = Expr.clval self ∧
      Expr.valueIn s (constantly_t.call_const (V := V) self args) = Store.read s self ∧
      constantly_t.call_rval s self args = Expr.prval (Store.read s self) ∧
      Store.read (Expr.writeThru s (constantly_t.call_mut (V := V) self args) w)
          self = w ∧
      constantly s arg = Expr.valueIn s arg := by
  refine ⟨rfl, rfl, rfl, rfl, rfl, ?_, rfl⟩
  simp [constantly_t.call_mut, Expr.writeThru, Store.write, Store.read]

/-- C10: `identity` forwards its argument's value category unchanged — on
an addressable input the result is an lvalue aliasing the original storage,
so a write through the result is visible at the original address, and a
temporary input comes back as a value — whereas `identity_` always yields
an independent prvalue that aliases no caller storage. -/
theorem identity_value_category_fidelity {V : Type} (s : Store V) (a : Nat)
    (v w : V) (e : Expr V) :
    identity_t.call e = e ∧
      identity_t.call (Expr.lval a : Expr V) = Expr.lval a ∧
      Store.read (Expr.writeThru s (identity_t.call (Expr.lval a : Expr V)) w) a = w ∧
      identity_t.call (Expr.prval v) = Expr.prval v ∧
      identity__t.call s e = Expr.prval (Expr.valueIn s e) ∧
      ∀ b : Nat, ¬ Expr.aliasOf b (identity__t.call s e) := by
  refine ⟨rfl, rfl, ?_, rfl, rfl, ?_⟩
  · simp [identity_t.call, Expr.writeThru, Store.write, Store.read]
  · intro b
    simp [identity__t.call, Expr.aliasOf]

end Zug
